import Mathlib

/-!
Shallow embedding of the `nakamoto` light-client sources relevant to the
verified claims:

* `src/p2p/src/fsm/pingmgr.rs` — the ping/liveness manager (`PingManager`),
  its per-peer state machine and its operations `peer_negotiated`,
  `peer_disconnected`, `received_wake`, `received_ping`, `received_pong`.
* `src/client/src/event.rs` — the client event type (re-org ordering claim).
* `src/wallet/src/main.rs` — the wallet CLI options and exit-code behaviour.

Time is modelled in milliseconds: `LocalDuration` in the sources is a
millisecond count, and `LocalTime - LocalTime` yields a duration.  Machine
integers are modelled as `Nat`; the subtraction `now - since` is `Nat`
truncated subtraction, which agrees with the source on the monotone clocks
it is used with.  The random number generator is modelled as an explicit
stream `rng : Nat → Nat` consumed at an increasing counter, and the clock
is passed as an explicit `now` argument to each operation (the Rust code
reads `clock.local_time()` exactly once per operation; `received_pong`
already takes `now` as a parameter in the source).
-/

namespace Nakamoto

/-- Peer identifier (`PeerId`, convertible to a socket address); opaque. -/
abbrev PeerId := Nat

/-- `LocalTime`, in milliseconds. -/
abbrev Instant := Nat

/-- `LocalDuration`, in milliseconds. -/
abbrev Duration := Nat

/-- `LocalDuration::from_secs`. -/
def Duration.from_secs (s : Nat) : Duration := s * 1000

/-- `LocalDuration::from_mins`. -/
def Duration.from_mins (m : Nat) : Duration := m * 60 * 1000

/-- Time interval to wait between sent pings (`PING_INTERVAL`, 2 minutes). -/
def PING_INTERVAL : Duration := Duration.from_mins 2

/-- Time to wait to receive a pong when sending a ping (`PING_TIMEOUT`, 30 s). -/
def PING_TIMEOUT : Duration := Duration.from_secs 30

/-- Maximum number of latencies recorded per peer (`MAX_RECORDED_LATENCIES`). -/
def MAX_RECORDED_LATENCIES : Nat := 64

/-- The static string `"ping"` used in the ping-timeout disconnect reason. -/
def pingStr : String := "ping"

/-- `DisconnectReason` (the variant exercised by the ping manager). -/
inductive DisconnectReason where
  | peerTimeout (which : String)
deriving DecidableEq, Repr

/-- Outputs the ping manager sends to its upstream
(`Wire::ping`, `Wire::pong`, `Wakeup::wakeup`, `Disconnect::disconnect`). -/
inductive Out where
  | ping (addr : PeerId) (nonce : Nat)
  | pong (addr : PeerId) (nonce : Nat)
  | wakeup (d : Duration)
  | disconnect (addr : PeerId) (reason : DisconnectReason)
deriving DecidableEq, Repr

/-- Per-peer ping state (`State` in `pingmgr.rs`). -/
inductive State where
  | awaitingPong (nonce : Nat) (since : Instant)
  | idle (since : Instant)
deriving DecidableEq, Repr

/-- Per-peer record (`Peer` in `pingmgr.rs`). -/
structure Peer where
  address : PeerId
  state : State
  latencies : List Duration
deriving DecidableEq, Repr

/-- `Peer::record_latency`: push the newest sample at the front of the FIFO
and truncate it to `MAX_RECORDED_LATENCIES` entries. -/
def Peer.record_latency (p : Peer) (sample : Duration) : Peer :=
  { p with latencies := (sample :: p.latencies).take MAX_RECORDED_LATENCIES }

/-- `Peer::latency`: the average of the recorded samples.  The source divides
the sum by `latencies.len() as u32`; when the FIFO is empty the divisor is
zero and the Rust division panics, which is modelled here by `none`. -/
def Peer.latency (p : Peer) : Option Duration :=
  if p.latencies.length = 0 then none
  else some (p.latencies.sum / p.latencies.length)

/-- The peer map of the ping manager, modelled as an association list.  The
source uses a `HashMap`; `insertPeer` mirrors `HashMap::insert` on the first
occurrence of the key, and reachable managers have pairwise-distinct keys. -/
def lookupPeer : List (PeerId × Peer) → PeerId → Option Peer
  | [], _ => none
  | (k, v) :: rest, a => if k = a then some v else lookupPeer rest a

/-- `HashMap::insert` on the association-list model. -/
def insertPeer : List (PeerId × Peer) → PeerId → Peer → List (PeerId × Peer)
  | [], a, p => [(a, p)]
  | (k, v) :: rest, a, p =>
    if k = a then (a, p) :: rest else (k, v) :: insertPeer rest a p

/-- `HashMap::remove` on the association-list model. -/
def removePeer : List (PeerId × Peer) → PeerId → List (PeerId × Peer)
  | [], _ => []
  | (k, v) :: rest, a => if k = a then rest else (k, v) :: removePeer rest a

/-- `PingManager` (`pingmgr.rs`): the peer map, the configured ping timeout,
and the random-number generator modelled as a stream with a counter. -/
structure PingManager where
  peers : List (PeerId × Peer)
  ping_timeout : Duration
  rng : Nat → Nat
  rngCounter : Nat

/-- `PingManager::new`. -/
def PingManager.new (ping_timeout : Duration) (rng : Nat → Nat) : PingManager :=
  { peers := [], ping_timeout := ping_timeout, rng := rng, rngCounter := 0 }

/-- `PingManager::peer_negotiated`: draw a fresh nonce, send `ping`, and
insert the peer in state `AwaitingPong { nonce, since: now }` with an empty
latency history. -/
def PingManager.peer_negotiated (m : PingManager) (addr : PeerId) (now : Instant) :
    PingManager × List Out :=
  ({ m with
      rngCounter := m.rngCounter + 1,
      peers := insertPeer m.peers addr
        { address := addr,
          state := State.awaitingPong (m.rng m.rngCounter) now,
          latencies := [] } },
   [Out.ping addr (m.rng m.rngCounter)])

/-- `PingManager::peer_disconnected`: remove the peer record. -/
def PingManager.peer_disconnected (m : PingManager) (addr : PeerId) : PingManager :=
  { m with peers := removePeer m.peers addr }

/-- The body of the loop in `PingManager::received_wake`, processing the peer
entries in order while threading the rng counter.  Returns the updated
entries, the emitted outputs, and the final rng counter. -/
def wakeGo (tmo : Duration) (rng : Nat → Nat) (now : Instant) :
    List (PeerId × Peer) → Nat → List (PeerId × Peer) × List Out × Nat
  | [], c => ([], [], c)
  | (k, peer) :: rest, c =>
    match peer.state with
    | State.awaitingPong _ s =>
      let r := wakeGo tmo rng now rest c
      ((k, peer) :: r.1,
       (if tmo ≤ now - s
        then [Out.disconnect peer.address (DisconnectReason.peerTimeout pingStr)]
        else []) ++ r.2.1,
       r.2.2)
    | State.idle s =>
      if PING_INTERVAL ≤ now - s then
        let r := wakeGo tmo rng now rest (c + 1)
        ((k, { peer with state := State.awaitingPong (rng c) now }) :: r.1,
         Out.ping peer.address (rng c) :: Out.wakeup tmo :: Out.wakeup PING_INTERVAL :: r.2.1,
         r.2.2)
      else
        let r := wakeGo tmo rng now rest c
        ((k, peer) :: r.1, r.2.1, r.2.2)

/-- `PingManager::received_wake`: for each peer awaiting a pong past the
timeout, emit a disconnect; for each idle peer past the ping interval, send a
fresh ping, request wakeups after `ping_timeout` and `PING_INTERVAL`, and move
the peer to `AwaitingPong { nonce, since: now }`. -/
def PingManager.received_wake (m : PingManager) (now : Instant) :
    PingManager × List Out :=
  let r := wakeGo m.ping_timeout m.rng now m.peers m.rngCounter
  ({ m with peers := r.1, rngCounter := r.2.2 }, r.2.1)

/-- `PingManager::received_ping`: reply with `pong` to known peers. -/
def PingManager.received_ping (m : PingManager) (addr : PeerId) (nonce : Nat) :
    PingManager × List Out × Bool :=
  if (lookupPeer m.peers addr).isSome then (m, [Out.pong addr nonce], true)
  else (m, [], false)

/-- `PingManager::received_pong`: on a matching nonce while awaiting a pong,
record the round trip `now - since` and move to `Idle { since: now }`;
otherwise ignore the pong. -/
def PingManager.received_pong (m : PingManager) (addr : PeerId) (nonce : Nat)
    (now : Instant) : PingManager × Bool :=
  match lookupPeer m.peers addr with
  | none => (m, false)
  | some peer =>
    match peer.state with
    | State.awaitingPong lastNonce since =>
      if nonce = lastNonce then
        ({ m with
            peers := insertPeer m.peers addr
              { Peer.record_latency peer (now - since) with state := State.idle now } },
         true)
      else (m, false)
    | State.idle _ => (m, false)

/-- Well-formedness of a manager's peer map: every record's `address` field
equals its key, and keys are pairwise distinct.  Both hold in every state
reachable through the manager's operations. -/
def WF (m : PingManager) : Prop :=
  (∀ kp ∈ m.peers, kp.2.address = kp.1) ∧ (m.peers.map Prod.fst).Nodup

/-- The states reachable through the public operations of the ping manager,
starting from `PingManager::new`. -/
inductive Reachable : PingManager → Prop
  | init (tmo : Duration) (rng : Nat → Nat) :
      Reachable (PingManager.new tmo rng)
  | negotiated {m : PingManager} (addr : PeerId) (now : Instant) :
      Reachable m → Reachable (m.peer_negotiated addr now).1
  | disconnected {m : PingManager} (addr : PeerId) :
      Reachable m → Reachable (m.peer_disconnected addr)
  | wake {m : PingManager} (now : Instant) :
      Reachable m → Reachable (m.received_wake now).1
  | ping {m : PingManager} (addr : PeerId) (nonce : Nat) :
      Reachable m → Reachable (m.received_ping addr nonce).1
  | pong {m : PingManager} (addr : PeerId) (nonce : Nat) (now : Instant) :
      Reachable m → Reachable (m.received_pong addr nonce now).1

theorem lookupPeer_insertPeer_self (l : List (PeerId × Peer)) (a : PeerId) (p : Peer) :
    lookupPeer (insertPeer l a p) a = some p := by
  induction l with
  | nil => simp [insertPeer, lookupPeer]
  | cons hd tl ih =>
    obtain ⟨k, v⟩ := hd
    by_cases hk : k = a
    · simp [insertPeer, lookupPeer, hk]
    · simp [insertPeer, lookupPeer, hk, ih]

theorem lookupPeer_mem {l : List (PeerId × Peer)} {a : PeerId} {p : Peer}
    (h : lookupPeer l a = some p) : (a, p) ∈ l := by
  induction l with
  | nil => simp [lookupPeer] at h
  | cons hd tl ih =>
    obtain ⟨k, v⟩ := hd
    by_cases hk : k = a
    · subst hk
      simp [lookupPeer] at h
      subst h
      exact List.mem_cons_self _ _
    · simp [lookupPeer, hk] at h
      exact List.mem_cons_of_mem _ (ih h)

theorem lookupPeer_of_mem_nodup {l : List (PeerId × Peer)} {a : PeerId} {p : Peer}
    (hnd : (l.map Prod.fst).Nodup) (h : (a, p) ∈ l) : lookupPeer l a = some p := by
  induction l with
  | nil => simp at h
  | cons hd tl ih =>
    obtain ⟨k, v⟩ := hd
    simp only [List.map_cons, List.nodup_cons] at hnd
    rcases List.mem_cons.mp h with h1 | h1
    · cases h1
      simp [lookupPeer]
    · have hka : k ≠ a := by
        intro hk
        subst hk
        exact hnd.1 (List.mem_map.mpr ⟨(k, p), h1, rfl⟩)
      simp [lookupPeer, hka]
      exact ih hnd.2 h1

theorem mem_insertPeer {l : List (PeerId × Peer)} {a : PeerId} {p : Peer}
    {kp : PeerId × Peer} (h : kp ∈ insertPeer l a p) : kp ∈ l ∨ kp = (a, p) := by
  induction l with
  | nil =>
    simp [insertPeer] at h
    exact Or.inr h
  | cons hd tl ih =>
    obtain ⟨k, v⟩ := hd
    by_cases hk : k = a
    · simp [insertPeer, hk] at h
      rcases h with h | h
      · exact Or.inr (by simp [h])
      · exact Or.inl (List.mem_cons_of_mem _ h)
    · simp only [insertPeer, if_neg hk] at h
      rcases List.mem_cons.mp h with h | h
      · exact Or.inl (by simp [h])
      · rcases ih h with h1 | h1
        · exact Or.inl (List.mem_cons_of_mem _ h1)
        · exact Or.inr h1

theorem mem_removePeer {l : List (PeerId × Peer)} {a : PeerId}
    {kp : PeerId × Peer} (h : kp ∈ removePeer l a) : kp ∈ l := by
  induction l with
  | nil => simp [removePeer] at h
  | cons hd tl ih =>
    obtain ⟨k, v⟩ := hd
    by_cases hk : k = a
    · simp only [removePeer, if_pos hk] at h
      exact List.mem_cons_of_mem _ h
    · simp only [removePeer, if_neg hk] at h
      rcases List.mem_cons.mp h with h | h
      · exact h ▸ List.mem_cons_self _ _
      · exact List.mem_cons_of_mem _ (ih h)

theorem lookupPeer_removePeer_self {l : List (PeerId × Peer)} {a : PeerId}
    (hnd : (l.map Prod.fst).Nodup) : lookupPeer (removePeer l a) a = none := by
  induction l with
  | nil => simp [removePeer, lookupPeer]
  | cons hd tl ih =>
    obtain ⟨k, v⟩ := hd
    simp only [List.map_cons, List.nodup_cons] at hnd
    by_cases hk : k = a
    · subst hk
      simp only [removePeer, if_pos rfl]
      cases hlook : lookupPeer tl k with
      | none => exact hlook
      | some p =>
        exact absurd (List.mem_map.mpr ⟨(k, p), lookupPeer_mem hlook, rfl⟩) hnd.1
    · simp only [removePeer, if_neg hk, lookupPeer, if_neg hk]
      exact ih hnd.2

theorem wakeGo_keys (tmo : Duration) (rng : Nat → Nat) (now : Instant) :
    ∀ (l : List (PeerId × Peer)) (c : Nat),
    ((wakeGo tmo rng now l c).1).map Prod.fst = l.map Prod.fst := by
  intro l
  induction l with
  | nil => intro c; simp [wakeGo]
  | cons hd tl ih =>
    intro c
    obtain ⟨k, peer⟩ := hd
    obtain ⟨addr, st, lats⟩ := peer
    cases st with
    | awaitingPong n s => simp [wakeGo, ih]
    | idle s =>
      by_cases hp : PING_INTERVAL ≤ now - s
      · simp [wakeGo, hp, ih]
      · simp [wakeGo, hp, ih]

theorem wakeGo_mem (tmo : Duration) (rng : Nat → Nat) (now : Instant) :
    ∀ (l : List (PeerId × Peer)) (c : Nat) (kp : PeerId × Peer),
    kp ∈ (wakeGo tmo rng now l c).1 →
    ∃ kq ∈ l, kp.1 = kq.1 ∧ kp.2.address = kq.2.address ∧
      kp.2.latencies = kq.2.latencies := by
  intro l
  induction l with
  | nil => intro c kp h; simp [wakeGo] at h
  | cons hd tl ih =>
    intro c kp h
    obtain ⟨k, peer⟩ := hd
    obtain ⟨addr, st, lats⟩ := peer
    cases st with
    | awaitingPong n s =>
      simp only [wakeGo, List.mem_cons] at h
      rcases h with h | h
      · exact ⟨(k, ⟨addr, State.awaitingPong n s, lats⟩), List.mem_cons_self _ _, by simp [h]⟩
      · obtain ⟨kq, hmem, hprops⟩ := ih c kp h
        exact ⟨kq, List.mem_cons_of_mem _ hmem, hprops⟩
    | idle s =>
      by_cases hp : PING_INTERVAL ≤ now - s
      · simp only [wakeGo, if_pos hp, List.mem_cons] at h
        rcases h with h | h
        · exact ⟨(k, ⟨addr, State.idle s, lats⟩), List.mem_cons_self _ _, by simp [h]⟩
        · obtain ⟨kq, hmem, hprops⟩ := ih (c + 1) kp h
          exact ⟨kq, List.mem_cons_of_mem _ hmem, hprops⟩
      · simp only [wakeGo, if_neg hp, List.mem_cons] at h
        rcases h with h | h
        · exact ⟨(k, ⟨addr, State.idle s, lats⟩), List.mem_cons_self _ _, by simp [h]⟩
        · obtain ⟨kq, hmem, hprops⟩ := ih c kp h
          exact ⟨kq, List.mem_cons_of_mem _ hmem, hprops⟩

theorem wakeGo_disconnect_of_mem (tmo : Duration) (rng : Nat → Nat) (now : Instant) :
    ∀ (l : List (PeerId × Peer)) (c : Nat) (k : PeerId) (q : Peer) (n : Nat) (s : Instant),
    (k, q) ∈ l → q.state = State.awaitingPong n s → tmo ≤ now - s →
    Out.disconnect q.address (DisconnectReason.peerTimeout pingStr) ∈
      (wakeGo tmo rng now l c).2.1 := by
  intro l
  induction l with
  | nil => intro c k q n s hmem; simp at hmem
  | cons hd tl ih =>
    intro c k q n s hmem hst htmo
    obtain ⟨k0, peer0⟩ := hd
    obtain ⟨addr0, st0, lats0⟩ := peer0
    rcases List.mem_cons.mp hmem with h | h
    · injection h with hk hq
      subst hq
      dsimp only at hst
      subst hst
      simp [wakeGo, if_pos htmo]
    · cases st0 with
      | awaitingPong n0 s0 =>
        simp only [wakeGo, List.mem_append]
        exact Or.inr (ih c k q n s h hst htmo)
      | idle s0 =>
        by_cases hp : PING_INTERVAL ≤ now - s0
        · simp only [wakeGo, if_pos hp, List.mem_cons]
          exact Or.inr (Or.inr (Or.inr (ih (c + 1) k q n s h hst htmo)))
        · simp only [wakeGo, if_neg hp]
          exact ih c k q n s h hst htmo

theorem wakeGo_mem_disconnect (tmo : Duration) (rng : Nat → Nat) (now : Instant) :
    ∀ (l : List (PeerId × Peer)) (c : Nat) (a : PeerId) (rs : DisconnectReason),
    Out.disconnect a rs ∈ (wakeGo tmo rng now l c).2.1 →
    ∃ k q n s, (k, q) ∈ l ∧ q.address = a ∧ q.state = State.awaitingPong n s ∧
      tmo ≤ now - s ∧ rs = DisconnectReason.peerTimeout pingStr := by
  intro l
  induction l with
  | nil => intro c a rs h; simp [wakeGo] at h
  | cons hd tl ih =>
    intro c a rs h
    obtain ⟨k0, peer0⟩ := hd
    obtain ⟨addr0, st0, lats0⟩ := peer0
    cases st0 with
    | awaitingPong n0 s0 =>
      simp only [wakeGo, List.mem_append] at h
      rcases h with h | h
      · by_cases htmo : tmo ≤ now - s0
        · simp only [if_pos htmo, List.mem_singleton] at h
          injection h with ha hrs
          exact ⟨k0, ⟨addr0, State.awaitingPong n0 s0, lats0⟩, n0, s0,
            List.mem_cons_self _ _, ha.symm, rfl, htmo, hrs⟩
        · simp [if_neg htmo] at h
      · obtain ⟨k, q, n, s, hmem, hrest⟩ := ih c a rs h
        exact ⟨k, q, n, s, List.mem_cons_of_mem _ hmem, hrest⟩
    | idle s0 =>
      by_cases hp : PING_INTERVAL ≤ now - s0
      · simp only [wakeGo, if_pos hp, List.mem_cons] at h
        rcases h with h | h | h | h
        · exact absurd h (by simp)
        · exact absurd h (by simp)
        · exact absurd h (by simp)
        · obtain ⟨k, q, n, s, hmem, hrest⟩ := ih (c + 1) a rs h
          exact ⟨k, q, n, s, List.mem_cons_of_mem _ hmem, hrest⟩
      · simp only [wakeGo, if_neg hp] at h
        obtain ⟨k, q, n, s, hmem, hrest⟩ := ih c a rs h
        exact ⟨k, q, n, s, List.mem_cons_of_mem _ hmem, hrest⟩

theorem wakeGo_mem_ping (tmo : Duration) (rng : Nat → Nat) (now : Instant) :
    ∀ (l : List (PeerId × Peer)) (c : Nat) (a : PeerId) (n : Nat),
    Out.ping a n ∈ (wakeGo tmo rng now l c).2.1 →
    ∃ k q s, (k, q) ∈ l ∧ q.address = a ∧ q.state = State.idle s ∧
      PING_INTERVAL ≤ now - s := by
  intro l
  induction l with
  | nil => intro c a n h; simp [wakeGo] at h
  | cons hd tl ih =>
    intro c a n h
    obtain ⟨k0, peer0⟩ := hd
    obtain ⟨addr0, st0, lats0⟩ := peer0
    cases st0 with
    | awaitingPong n0 s0 =>
      simp only [wakeGo, List.mem_append] at h
      rcases h with h | h
      · by_cases htmo : tmo ≤ now - s0
        · simp [if_pos htmo] at h
        · simp [if_neg htmo] at h
      · obtain ⟨k, q, s, hmem, hrest⟩ := ih c a n h
        exact ⟨k, q, s, List.mem_cons_of_mem _ hmem, hrest⟩
    | idle s0 =>
      by_cases hp : PING_INTERVAL ≤ now - s0
      · simp only [wakeGo, if_pos hp, List.mem_cons] at h
        rcases h with h | h | h | h
        · injection h with ha hn
          exact ⟨k0, ⟨addr0, State.idle s0, lats0⟩, s0,
            List.mem_cons_self _ _, ha.symm, rfl, hp⟩
        · exact absurd h (by simp)
        · exact absurd h (by simp)
        · obtain ⟨k, q, s, hmem, hrest⟩ := ih (c + 1) a n h
          exact ⟨k, q, s, List.mem_cons_of_mem _ hmem, hrest⟩
      · simp only [wakeGo, if_neg hp] at h
        obtain ⟨k, q, s, hmem, hrest⟩ := ih c a n h
        exact ⟨k, q, s, List.mem_cons_of_mem _ hmem, hrest⟩

theorem wakeGo_lookup_awaiting (tmo : Duration) (rng : Nat → Nat) (now : Instant) :
    ∀ (l : List (PeerId × Peer)) (c : Nat) (p : PeerId) (q : Peer) (n : Nat) (s : Instant),
    lookupPeer l p = some q → q.state = State.awaitingPong n s →
    lookupPeer (wakeGo tmo rng now l c).1 p = some q := by
  intro l
  induction l with
  | nil => intro c p q n s hl _; simp [lookupPeer] at hl
  | cons hd tl ih =>
    intro c p q n s hl hst
    obtain ⟨k0, peer0⟩ := hd
    obtain ⟨addr0, st0, lats0⟩ := peer0
    by_cases hk : k0 = p
    · subst hk
      simp only [lookupPeer, if_pos rfl] at hl
      injection hl with hq
      subst hq
      dsimp only at hst
      subst hst
      simp [wakeGo, lookupPeer]
    · simp only [lookupPeer, if_neg hk] at hl
      cases st0 with
      | awaitingPong n0 s0 =>
        simp only [wakeGo, lookupPeer, if_neg hk]
        exact ih c p q n s hl hst
      | idle s0 =>
        by_cases hp : PING_INTERVAL ≤ now - s0
        · simp only [wakeGo, if_pos hp, lookupPeer, if_neg hk]
          exact ih (c + 1) p q n s hl hst
        · simp only [wakeGo, if_neg hp, lookupPeer, if_neg hk]
          exact ih c p q n s hl hst

theorem wakeGo_lookup_idle_recent (tmo : Duration) (rng : Nat → Nat) (now : Instant) :
    ∀ (l : List (PeerId × Peer)) (c : Nat) (p : PeerId) (q : Peer) (s : Instant),
    lookupPeer l p = some q → q.state = State.idle s → now - s < PING_INTERVAL →
    lookupPeer (wakeGo tmo rng now l c).1 p = some q := by
  intro l
  induction l with
  | nil => intro c p q s hl _ _; simp [lookupPeer] at hl
  | cons hd tl ih =>
    intro c p q s hl hst hrecent
    obtain ⟨k0, peer0⟩ := hd
    obtain ⟨addr0, st0, lats0⟩ := peer0
    by_cases hk : k0 = p
    · subst hk
      simp only [lookupPeer, if_pos rfl] at hl
      injection hl with hq
      subst hq
      dsimp only at hst
      subst hst
      simp [wakeGo, Nat.not_le.mpr hrecent, lookupPeer]
    · simp only [lookupPeer, if_neg hk] at hl
      cases st0 with
      | awaitingPong n0 s0 =>
        simp only [wakeGo, lookupPeer, if_neg hk]
        exact ih c p q s hl hst hrecent
      | idle s0 =>
        by_cases hp : PING_INTERVAL ≤ now - s0
        · simp only [wakeGo, if_pos hp, lookupPeer, if_neg hk]
          exact ih (c + 1) p q s hl hst hrecent
        · simp only [wakeGo, if_neg hp, lookupPeer, if_neg hk]
          exact ih c p q s hl hst hrecent

theorem wakeGo_lookup_idle_expired (tmo : Duration) (rng : Nat → Nat) (now : Instant) :
    ∀ (l : List (PeerId × Peer)) (c : Nat) (p : PeerId) (q : Peer) (s : Instant),
    lookupPeer l p = some q → q.state = State.idle s → PING_INTERVAL ≤ now - s →
    ∃ nonce,
      lookupPeer (wakeGo tmo rng now l c).1 p =
        some { q with state := State.awaitingPong nonce now } ∧
      Out.ping q.address nonce ∈ (wakeGo tmo rng now l c).2.1 ∧
      Out.wakeup tmo ∈ (wakeGo tmo rng now l c).2.1 ∧
      Out.wakeup PING_INTERVAL ∈ (wakeGo tmo rng now l c).2.1 := by
  intro l
  induction l with
  | nil => intro c p q s hl _ _; simp [lookupPeer] at hl
  | cons hd tl ih =>
    intro c p q s hl hst hexp
    obtain ⟨k0, peer0⟩ := hd
    obtain ⟨addr0, st0, lats0⟩ := peer0
    by_cases hk : k0 = p
    · subst hk
      simp only [lookupPeer, if_pos rfl] at hl
      injection hl with hq
      subst hq
      dsimp only at hst
      subst hst
      refine ⟨rng c, ?_, ?_, ?_, ?_⟩
      · simp [wakeGo, if_pos hexp, lookupPeer]
      · simp [wakeGo, if_pos hexp]
      · simp [wakeGo, if_pos hexp]
      · simp [wakeGo, if_pos hexp]
    · simp only [lookupPeer, if_neg hk] at hl
      cases st0 with
      | awaitingPong n0 s0 =>
        obtain ⟨nonce, h1, h2, h3, h4⟩ := ih c p q s hl hst hexp
        refine ⟨nonce, ?_, ?_, ?_, ?_⟩
        · simp only [wakeGo, lookupPeer, if_neg hk]
          exact h1
        · simp only [wakeGo, List.mem_append]
          exact Or.inr h2
        · simp only [wakeGo, List.mem_append]
          exact Or.inr h3
        · simp only [wakeGo, List.mem_append]
          exact Or.inr h4
      | idle s0 =>
        by_cases hp : PING_INTERVAL ≤ now - s0
        · obtain ⟨nonce, h1, h2, h3, h4⟩ := ih (c + 1) p q s hl hst hexp
          refine ⟨nonce, ?_, ?_, ?_, ?_⟩
          · simp only [wakeGo, if_pos hp, lookupPeer, if_neg hk]
            exact h1
          · simp only [wakeGo, if_pos hp, List.mem_cons]
            exact Or.inr (Or.inr (Or.inr h2))
          · simp only [wakeGo, if_pos hp, List.mem_cons]
            exact Or.inr (Or.inr (Or.inr h3))
          · simp only [wakeGo, if_pos hp, List.mem_cons]
            exact Or.inr (Or.inr (Or.inr h4))
        · obtain ⟨nonce, h1, h2, h3, h4⟩ := ih c p q s hl hst hexp
          refine ⟨nonce, ?_, ?_, ?_, ?_⟩
          · simp only [wakeGo, if_neg hp, lookupPeer, if_neg hk]
            exact h1
          · simp only [wakeGo, if_neg hp]
            exact h2
          · simp only [wakeGo, if_neg hp]
            exact h3
          · simp only [wakeGo, if_neg hp]
            exact h4

/-- A concrete rng stream used by the witnesses. -/
def rng0 : Nat → Nat := fun i => i + 7

/-- A concrete peer awaiting a pong (nonce 42, since 100 ms), for witnesses. -/
def peerAwaiting : Peer :=
  { address := 1, state := State.awaitingPong 42 100, latencies := [] }

/-- A concrete idle peer (since 100 ms, one recorded sample), for witnesses. -/
def peerIdle : Peer :=
  { address := 2, state := State.idle 100, latencies := [5] }

/-- A concrete ping manager tracking `peerAwaiting` and `peerIdle`. -/
def mgrA : PingManager :=
  { peers := [(1, peerAwaiting), (2, peerIdle)],
    ping_timeout := Duration.from_secs 30,
    rng := rng0,
    rngCounter := 0 }

/-- Claim C1: for every peer tracked in state `AwaitingPong { nonce, since }`,
`received_wake` at time `now` emits `Disconnect(p, PeerTimeout("ping"))` when
`now - since ≥ ping_timeout` (whose default `PING_TIMEOUT` is 30 s), and emits
no disconnect for `p` when `now - since < ping_timeout`. -/
theorem claim_C1 (m : PingManager) (p : PeerId) (peer : Peer) (nonce : Nat)
    (since now : Instant) (hwf : WF m)
    (hl : lookupPeer m.peers p = some peer)
    (hst : peer.state = State.awaitingPong nonce since) :
    pingStr = "ping" ∧
    PING_TIMEOUT = Duration.from_secs 30 ∧
    (m.ping_timeout ≤ now - since →
      Out.disconnect p (DisconnectReason.peerTimeout pingStr) ∈ (m.received_wake now).2) ∧
    (now - since < m.ping_timeout →
      Out.disconnect p (DisconnectReason.peerTimeout pingStr) ∉ (m.received_wake now).2) := by
  have haddr : peer.address = p := hwf.1 (p, peer) (lookupPeer_mem hl)
  refine ⟨rfl, rfl, ?_, ?_⟩
  · intro htmo
    have := wakeGo_disconnect_of_mem m.ping_timeout m.rng now m.peers m.rngCounter
      p peer nonce since (lookupPeer_mem hl) hst htmo
    rw [haddr] at this
    exact this
  · intro hlt hmem
    obtain ⟨k, q, n, s, hmemq, haq, hstq, htmo, _⟩ :=
      wakeGo_mem_disconnect m.ping_timeout m.rng now m.peers m.rngCounter
        p (DisconnectReason.peerTimeout pingStr) hmem
    have hk : q.address = k := hwf.1 (k, q) hmemq
    have hkp : k = p := hk.symm.trans haq
    subst hkp
    have hq : q = peer := by
      have := lookupPeer_of_mem_nodup hwf.2 hmemq
      rw [hl] at this
      injection this with h
      exact h.symm
    subst hq
    rw [hst] at hstq
    injection hstq with hn hs
    subst hs
    exact absurd htmo (Nat.not_le.mpr hlt)

/-- Witness for C1 at a concrete manager: the awaiting peer at address 1 with
`since = 100` and `now = 50000` (past the 30 s timeout). -/
theorem claim_C1_witness :
    WF mgrA ∧ lookupPeer mgrA.peers 1 = some peerAwaiting ∧
    peerAwaiting.state = State.awaitingPong 42 100 ∧
    (pingStr = "ping" ∧
     PING_TIMEOUT = Duration.from_secs 30 ∧
     (mgrA.ping_timeout ≤ 50000 - 100 →
       Out.disconnect 1 (DisconnectReason.peerTimeout pingStr) ∈ (mgrA.received_wake 50000).2) ∧
     (50000 - 100 < mgrA.ping_timeout →
       Out.disconnect 1 (DisconnectReason.peerTimeout pingStr) ∉ (mgrA.received_wake 50000).2)) :=
  ⟨⟨by decide, by decide⟩, rfl, rfl,
    claim_C1 mgrA 1 peerAwaiting 42 100 50000 ⟨by decide, by decide⟩ rfl rfl⟩

/-- Claim C2: `received_pong(p, n', now)` when `p` is not awaiting a pong with
outstanding nonce `n'` (wrong nonce, idle peer, or untracked peer) is a no-op
returning `false`: the manager is unchanged. -/
theorem claim_C2 (m : PingManager) (addr : PeerId) (nonce : Nat) (now : Instant)
    (h : ∀ peer, lookupPeer m.peers addr = some peer →
      ∀ n s, peer.state = State.awaitingPong n s → n ≠ nonce) :
    m.received_pong addr nonce now = (m, false) := by
  unfold PingManager.received_pong
  cases hl : lookupPeer m.peers addr with
  | none => rfl
  | some peer =>
    obtain ⟨a0, st0, l0⟩ := peer
    cases st0 with
    | awaitingPong n s =>
      have hne : ¬ (nonce = n) := fun hh =>
        h ⟨a0, State.awaitingPong n s, l0⟩ hl n s rfl hh.symm
      simp [hne]
    | idle s => rfl

/-- Witness for C2: a pong with nonce 7 while the awaiting peer at address 1
has outstanding nonce 42 leaves the manager unchanged and returns `false`. -/
theorem claim_C2_witness : mgrA.received_pong 1 7 0 = (mgrA, false) :=
  claim_C2 mgrA 1 7 0 (by
    intro peer hlp n s hstp
    have h0 : lookupPeer mgrA.peers 1 = some peerAwaiting := rfl
    rw [h0] at hlp
    injection hlp with hq
    subst hq
    have h1 : State.awaitingPong 42 100 = State.awaitingPong n s := hstp
    injection h1 with hn hs
    subst hn
    decide)

/-- Claim C3: `received_pong(p, nonce, now)` with the matching nonce while
awaiting a pong records `now - since` as the newest sample of the latency
FIFO, moves the peer to `Idle { since := now }`, and returns `true`. -/
theorem claim_C3 (m : PingManager) (p : PeerId) (peer : Peer) (nonce : Nat)
    (since now : Instant)
    (hl : lookupPeer m.peers p = some peer)
    (hst : peer.state = State.awaitingPong nonce since) :
    (m.received_pong p nonce now).2 = true ∧
    lookupPeer (m.received_pong p nonce now).1.peers p =
      some { peer with
              state := State.idle now,
              latencies := ((now - since) :: peer.latencies).take MAX_RECORDED_LATENCIES } := by
  obtain ⟨a0, st0, l0⟩ := peer
  dsimp only at hst
  subst hst
  have hres : m.received_pong p nonce now =
      ({ m with peers := insertPeer m.peers p (Peer.mk a0 (State.idle now) (((now - since) :: l0).take MAX_RECORDED_LATENCIES)) }, true) := by
    unfold PingManager.received_pong
    rw [hl]
    simp [Peer.record_latency]
  rw [hres]
  exact ⟨rfl, lookupPeer_insertPeer_self _ _ _⟩

/-- Witness for C3: the matching pong (nonce 42) at `now = 150` records the
round trip `50` and idles the peer. -/
theorem claim_C3_witness :
    lookupPeer mgrA.peers 1 = some peerAwaiting ∧
    (mgrA.received_pong 1 42 150).2 = true ∧
    lookupPeer (mgrA.received_pong 1 42 150).1.peers 1 =
      some { peerAwaiting with
              state := State.idle 150,
              latencies := ((150 - 100) :: peerAwaiting.latencies).take MAX_RECORDED_LATENCIES } :=
  ⟨rfl, claim_C3 mgrA 1 peerAwaiting 42 100 150 rfl rfl⟩

/-- Claim C5: `peer_negotiated(p)` immediately sends `ping(nonce)` with the
next rng nonce and records the peer in `AwaitingPong { nonce, since := now }`
with an empty latency history. -/
theorem claim_C5 (m : PingManager) (addr : PeerId) (now : Instant) :
    (m.peer_negotiated addr now).2 = [Out.ping addr (m.rng m.rngCounter)] ∧
    lookupPeer (m.peer_negotiated addr now).1.peers addr =
      some { address := addr, state := State.awaitingPong (m.rng m.rngCounter) now,
             latencies := [] } :=
  ⟨rfl, lookupPeer_insertPeer_self _ _ _⟩

/-- Claim C4: for an idle peer with `now - since ≥ PING_INTERVAL` (2 min),
`received_wake` sends a fresh ping, requests wakeups after `ping_timeout` and
after `PING_INTERVAL`, and moves the peer to `AwaitingPong { nonce, since := now }`;
for `now - since < PING_INTERVAL` no ping is sent to the peer and its record
is unchanged. -/
theorem claim_C4 (m : PingManager) (p : PeerId) (peer : Peer) (since now : Instant)
    (hwf : WF m) (hl : lookupPeer m.peers p = some peer)
    (hst : peer.state = State.idle since) :
    PING_INTERVAL = Duration.from_mins 2 ∧
    (PING_INTERVAL ≤ now - since →
      ∃ nonce,
        Out.ping p nonce ∈ (m.received_wake now).2 ∧
        Out.wakeup m.ping_timeout ∈ (m.received_wake now).2 ∧
        Out.wakeup PING_INTERVAL ∈ (m.received_wake now).2 ∧
        lookupPeer (m.received_wake now).1.peers p =
          some { peer with state := State.awaitingPong nonce now }) ∧
    (now - since < PING_INTERVAL →
      (∀ nonce, Out.ping p nonce ∉ (m.received_wake now).2) ∧
      lookupPeer (m.received_wake now).1.peers p = some peer) := by
  have haddr : peer.address = p := hwf.1 (p, peer) (lookupPeer_mem hl)
  refine ⟨rfl, ?_, ?_⟩
  · intro hexp
    obtain ⟨nonce, h1, h2, h3, h4⟩ :=
      wakeGo_lookup_idle_expired m.ping_timeout m.rng now m.peers m.rngCounter
        p peer since hl hst hexp
    rw [haddr] at h2
    exact ⟨nonce, h2, h3, h4, h1⟩
  · intro hrec
    refine ⟨?_, ?_⟩
    · intro nonce hmem
      obtain ⟨k, q, s, hmemq, haq, hstq, hexp⟩ :=
        wakeGo_mem_ping m.ping_timeout m.rng now m.peers m.rngCounter p nonce hmem
      have hk : q.address = k := hwf.1 (k, q) hmemq
      have hkp : k = p := hk.symm.trans haq
      subst hkp
      have hq : q = peer := by
        have := lookupPeer_of_mem_nodup hwf.2 hmemq
        rw [hl] at this
        injection this with h
        exact h.symm
      subst hq
      rw [hst] at hstq
      injection hstq with hs
      subst hs
      exact absurd hexp (Nat.not_le.mpr hrec)
    · exact wakeGo_lookup_idle_recent m.ping_timeout m.rng now m.peers m.rngCounter
        p peer since hl hst hrec

/-- Witness for C4: the idle peer at address 2 (`since = 100`) prompts a ping
and wakeups when woken at `now = 130000` (past the 2 min interval). -/
theorem claim_C4_witness :
    WF mgrA ∧ lookupPeer mgrA.peers 2 = some peerIdle ∧
    peerIdle.state = State.idle 100 ∧
    (PING_INTERVAL = Duration.from_mins 2 ∧
     (PING_INTERVAL ≤ 130000 - 100 →
       ∃ nonce,
         Out.ping 2 nonce ∈ (mgrA.received_wake 130000).2 ∧
         Out.wakeup mgrA.ping_timeout ∈ (mgrA.received_wake 130000).2 ∧
         Out.wakeup PING_INTERVAL ∈ (mgrA.received_wake 130000).2 ∧
         lookupPeer (mgrA.received_wake 130000).1.peers 2 =
           some { peerIdle with state := State.awaitingPong nonce 130000 }) ∧
     (130000 - 100 < PING_INTERVAL →
       (∀ nonce, Out.ping 2 nonce ∉ (mgrA.received_wake 130000).2) ∧
       lookupPeer (mgrA.received_wake 130000).1.peers 2 = some peerIdle)) :=
  ⟨⟨by decide, by decide⟩, rfl, rfl,
    claim_C4 mgrA 2 peerIdle 100 130000 ⟨by decide, by decide⟩ rfl rfl⟩

/-- Claim C10: a ping timeout detected by `received_wake` only emits the
disconnect and leaves the peer record untouched, so every later wake past the
deadline re-emits the disconnect, until `peer_disconnected` removes the
entry. -/
theorem claim_C10 (m : PingManager) (p : PeerId) (peer : Peer) (nonce : Nat)
    (since now now2 : Instant) (hwf : WF m)
    (hl : lookupPeer m.peers p = some peer)
    (hst : peer.state = State.awaitingPong nonce since)
    (h1 : m.ping_timeout ≤ now - since)
    (h2 : m.ping_timeout ≤ now2 - since) :
    Out.disconnect p (DisconnectReason.peerTimeout pingStr) ∈ (m.received_wake now).2 ∧
    lookupPeer (m.received_wake now).1.peers p = some peer ∧
    Out.disconnect p (DisconnectReason.peerTimeout pingStr) ∈
      ((m.received_wake now).1.received_wake now2).2 ∧
    lookupPeer ((m.received_wake now).1.peer_disconnected p).peers p = none := by
  have haddr : peer.address = p := hwf.1 (p, peer) (lookupPeer_mem hl)
  have hd1 := wakeGo_disconnect_of_mem m.ping_timeout m.rng now m.peers m.rngCounter
    p peer nonce since (lookupPeer_mem hl) hst h1
  rw [haddr] at hd1
  have hlook : lookupPeer (m.received_wake now).1.peers p = some peer :=
    wakeGo_lookup_awaiting m.ping_timeout m.rng now m.peers m.rngCounter
      p peer nonce since hl hst
  have hd2 := wakeGo_disconnect_of_mem m.ping_timeout m.rng now2
    (m.received_wake now).1.peers (m.received_wake now).1.rngCounter
    p peer nonce since (lookupPeer_mem hlook) hst h2
  rw [haddr] at hd2
  have hnd : (((m.received_wake now).1.peers).map Prod.fst).Nodup := by
    have hkeys := wakeGo_keys m.ping_timeout m.rng now m.peers m.rngCounter
    have : (m.received_wake now).1.peers = (wakeGo m.ping_timeout m.rng now m.peers m.rngCounter).1 := rfl
    rw [this, hkeys]
    exact hwf.2
  exact ⟨hd1, hlook, hd2, lookupPeer_removePeer_self hnd⟩

/-- Witness for C10: the awaiting peer at address 1 with deadline passed at
both `now = 50000` and `now2 = 90000`. -/
theorem claim_C10_witness :
    WF mgrA ∧ lookupPeer mgrA.peers 1 = some peerAwaiting ∧
    peerAwaiting.state = State.awaitingPong 42 100 ∧
    mgrA.ping_timeout ≤ 50000 - 100 ∧ mgrA.ping_timeout ≤ 90000 - 100 ∧
    (Out.disconnect 1 (DisconnectReason.peerTimeout pingStr) ∈ (mgrA.received_wake 50000).2 ∧
     lookupPeer (mgrA.received_wake 50000).1.peers 1 = some peerAwaiting ∧
     Out.disconnect 1 (DisconnectReason.peerTimeout pingStr) ∈
       ((mgrA.received_wake 50000).1.received_wake 90000).2 ∧
     lookupPeer ((mgrA.received_wake 50000).1.peer_disconnected 1).peers 1 = none) :=
  ⟨⟨by decide, by decide⟩, rfl, rfl, by decide, by decide,
    claim_C10 mgrA 1 peerAwaiting 42 100 50000 90000 ⟨by decide, by decide⟩ rfl rfl
      (by decide) (by decide)⟩

theorem received_ping_fst (m : PingManager) (addr : PeerId) (nonce : Nat) :
    (m.received_ping addr nonce).1 = m := by
  unfold PingManager.received_ping
  split <;> rfl

theorem received_pong_peers (m : PingManager) (addr : PeerId) (nonce : Nat)
    (now : Instant) :
    (m.received_pong addr nonce now).1.peers = m.peers ∨
    ∃ peer since,
      lookupPeer m.peers addr = some peer ∧
      (m.received_pong addr nonce now).1.peers =
        insertPeer m.peers addr
          { Peer.record_latency peer (now - since) with state := State.idle now } := by
  unfold PingManager.received_pong
  cases hl : lookupPeer m.peers addr with
  | none => exact Or.inl rfl
  | some peer =>
    obtain ⟨a0, st0, l0⟩ := peer
    cases st0 with
    | awaitingPong n s =>
      by_cases hn : nonce = n
      · refine Or.inr ⟨⟨a0, State.awaitingPong n s, l0⟩, s, rfl, ?_⟩
        simp [hn]
      · simp only [if_neg hn]
        exact Or.inl (by simp)
    | idle s => exact Or.inl rfl

theorem reachable_latencies_le (m : PingManager) (h : Reachable m) :
    ∀ kp ∈ m.peers, kp.2.latencies.length ≤ MAX_RECORDED_LATENCIES := by
  induction h with
  | init tmo rng =>
    intro kp hkp
    simp [PingManager.new] at hkp
  | negotiated addr now _ ih =>
    intro kp hkp
    rcases mem_insertPeer hkp with hmem | heq
    · exact ih kp hmem
    · rw [heq]
      simp [MAX_RECORDED_LATENCIES]
  | disconnected addr _ ih =>
    intro kp hkp
    exact ih kp (mem_removePeer hkp)
  | wake now _ ih =>
    intro kp hkp
    obtain ⟨kq, hmem, _, _, hlat⟩ := wakeGo_mem _ _ _ _ _ kp hkp
    rw [hlat]
    exact ih kq hmem
  | ping addr nonce _ ih =>
    intro kp hkp
    rw [received_ping_fst] at hkp
    exact ih kp hkp
  | pong addr nonce now _ ih =>
    intro kp hkp
    rcases received_pong_peers _ addr nonce now with hsame | ⟨peer, since, _, hins⟩
    · rw [hsame] at hkp
      exact ih kp hkp
    · rw [hins] at hkp
      rcases mem_insertPeer hkp with hmem | heq
      · exact ih kp hmem
      · rw [heq]
        simp only [Peer.record_latency]
        calc (List.take MAX_RECORDED_LATENCIES ((now - since) :: peer.latencies)).length
            = min MAX_RECORDED_LATENCIES ((now - since) :: peer.latencies).length :=
              List.length_take _ _
          _ ≤ MAX_RECORDED_LATENCIES := min_le_left _ _

/-- Claim C6: the per-peer latency FIFO of every reachable ping-manager state
holds at most `MAX_RECORDED_LATENCIES = 64` entries; `record_latency` pushes
the newest sample at the front and truncates the queue to 64. -/
theorem claim_C6 :
    MAX_RECORDED_LATENCIES = 64 ∧
    (∀ (p : Peer) (sample : Duration),
      (p.record_latency sample).latencies =
        (sample :: p.latencies).take MAX_RECORDED_LATENCIES) ∧
    (∀ m, Reachable m →
      ∀ kp ∈ m.peers, kp.2.latencies.length ≤ MAX_RECORDED_LATENCIES) :=
  ⟨rfl, fun _ _ => rfl, fun m h => reachable_latencies_le m h⟩

/-- A reachable manager used by the C6 witness: one negotiated peer. -/
def mgrR : PingManager :=
  ((PingManager.new (Duration.from_secs 30) rng0).peer_negotiated 1 100).1

/-- Witness for C6 at the reachable manager `mgrR`. -/
theorem claim_C6_witness :
    Reachable mgrR ∧
    ∀ kp ∈ mgrR.peers, kp.2.latencies.length ≤ MAX_RECORDED_LATENCIES :=
  ⟨Reachable.negotiated 1 100 (Reachable.init (Duration.from_secs 30) rng0),
   claim_C6.2.2 mgrR
     (Reachable.negotiated 1 100 (Reachable.init (Duration.from_secs 30) rng0))⟩

/-- Claim C9: `Peer::latency` averages the recorded samples as their sum
divided by their count; with a non-empty FIFO the result is defined, while on
an empty FIFO the divisor is zero and the source division panics (modelled
here as `none`), so the function is only safe when the history is
non-empty. -/
theorem claim_C9 :
    (∀ p : Peer, p.latencies ≠ [] →
      p.latency = some (p.latencies.sum / p.latencies.length)) ∧
    (∀ p : Peer, p.latencies = [] → p.latency = none) := by
  constructor
  · intro p hne
    have hlen : p.latencies.length ≠ 0 := fun h => hne (List.length_eq_zero.mp h)
    simp [Peer.latency, hlen]
  · intro p he
    simp [Peer.latency, he]

/-- Witness for C9: the average of `peerIdle`'s one sample is defined, and on
an emptied history the average is undefined. -/
theorem claim_C9_witness :
    peerIdle.latencies ≠ [] ∧
    peerIdle.latency = some (peerIdle.latencies.sum / peerIdle.latencies.length) ∧
    peerAwaiting.latencies = [] ∧
    peerAwaiting.latency = none :=
  ⟨by decide, claim_C9.1 peerIdle (by decide), rfl, claim_C9.2 peerAwaiting rfl⟩

/-- An opaque block header identifier (`BlockHeader` contents are irrelevant
to the ordering claim); chains are modelled as maps from height to header. -/
abbrev Header := Nat

/-- The client events relevant to the re-org ordering claim
(`Event::BlockConnected` and `Event::BlockDisconnected` of
`src/client/src/event.rs`, reduced to header and height). -/
inductive ClientEvent where
  | blockConnected (header : Header) (height : Nat)
  | blockDisconnected (header : Header) (height : Nat)
deriving DecidableEq, Repr

/-- Modelled from the spec: the `BlockDisconnected` events a re-org emits.
The re-org machinery (the `nakamoto-chain` block cache and the sync manager)
is not among the provided sources; `src/client/src/event.rs` only declares the
event type and documents that "these events will fire from the latest block
starting from the tip, to the earliest".  Walks from the old tip height `h`
down to the fork height `f` (exclusive), emitting one event per reverted
height. -/
def blockDisconnectedEvents (oldHdr : Nat → Header) (f h : Nat) : List ClientEvent :=
  if h ≤ f then []
  else ClientEvent.blockDisconnected (oldHdr h) h :: blockDisconnectedEvents oldHdr f (h - 1)
termination_by h
decreasing_by
  simp_wf
  omega

/-- Modelled from the spec: the `BlockConnected` events a re-org emits, for
heights `f + 1` up to the new tip height `h2`, taken from the new chain. -/
def blockConnectedEvents (newHdr : Nat → Header) (f h2 : Nat) : List ClientEvent :=
  (List.range (h2 - f)).map (fun i => ClientEvent.blockConnected (newHdr (f + 1 + i)) (f + 1 + i))

/-- Modelled from the spec: the full event sequence of a re-org from old tip
height `h1` to new tip height `h2` with fork height `f`: all disconnects of
the old chain, newest first, followed by all connects of the new chain,
oldest first. -/
def reorgEvents (oldHdr newHdr : Nat → Header) (f h1 h2 : Nat) : List ClientEvent :=
  blockDisconnectedEvents oldHdr f h1 ++ blockConnectedEvents newHdr f h2

theorem blockDisconnectedEvents_length (oldHdr : Nat → Header) (f : Nat) :
    ∀ h, (blockDisconnectedEvents oldHdr f h).length = h - f := by
  intro h
  induction h using Nat.strong_induction_on with
  | _ h ih =>
    rw [blockDisconnectedEvents]
    by_cases hf : h ≤ f
    · simp [hf, Nat.sub_eq_zero_of_le hf]
    · have hpos : 0 < h := by omega
      simp only [if_neg hf, List.length_cons, ih (h - 1) (by omega)]
      omega

theorem blockDisconnectedEvents_get (oldHdr : Nat → Header) (f : Nat) :
    ∀ k h, k < h - f →
    (blockDisconnectedEvents oldHdr f h).get? k =
      some (ClientEvent.blockDisconnected (oldHdr (h - k)) (h - k)) := by
  intro k
  induction k with
  | zero =>
    intro h hk
    rw [blockDisconnectedEvents]
    have hf : ¬ h ≤ f := by omega
    simp [hf]
  | succ k ih =>
    intro h hk
    rw [blockDisconnectedEvents]
    have hf : ¬ h ≤ f := by omega
    simp only [if_neg hf, List.get?_cons_succ]
    have hrec := ih (h - 1) (by omega)
    have hidx : h - 1 - k = h - (k + 1) := by omega
    rw [hrec, hidx]

theorem blockConnectedEvents_get (newHdr : Nat → Header) (f h2 : Nat) (k : Nat)
    (hk : k < h2 - f) :
    (blockConnectedEvents newHdr f h2).get? k =
      some (ClientEvent.blockConnected (newHdr (f + 1 + k)) (f + 1 + k)) := by
  unfold blockConnectedEvents
  rw [List.get?_map, List.get?_range hk]
  rfl

/-- Claim C7: a re-org from tip height `h1` to tip height `h2` with fork
height `f` emits exactly `BlockDisconnected(h1), …, BlockDisconnected(f+1)`
followed by `BlockConnected(f+1 on the new chain), …, BlockConnected(h2)`:
every disconnect precedes every connect, the disconnects descend from the old
tip to the earliest reverted block, and the connects ascend to the new tip. -/
theorem claim_C7 (oldHdr newHdr : Nat → Header) (f h1 h2 : Nat)
    (hf1 : f ≤ h1) (hf2 : f ≤ h2) :
    (reorgEvents oldHdr newHdr f h1 h2).length = (h1 - f) + (h2 - f) ∧
    (∀ k, k < h1 - f →
      (reorgEvents oldHdr newHdr f h1 h2).get? k =
        some (ClientEvent.blockDisconnected (oldHdr (h1 - k)) (h1 - k))) ∧
    (∀ k, k < h2 - f →
      (reorgEvents oldHdr newHdr f h1 h2).get? ((h1 - f) + k) =
        some (ClientEvent.blockConnected (newHdr (f + 1 + k)) (f + 1 + k))) := by
  have hdlen := blockDisconnectedEvents_length oldHdr f h1
  have hclen : (blockConnectedEvents newHdr f h2).length = h2 - f := by
    simp [blockConnectedEvents]
  refine ⟨?_, ?_, ?_⟩
  · simp [reorgEvents, hdlen, hclen]
  · intro k hk
    unfold reorgEvents
    rw [List.get?_append (by omega : k < (blockDisconnectedEvents oldHdr f h1).length)]
    exact blockDisconnectedEvents_get oldHdr f k h1 hk
  · intro k hk
    unfold reorgEvents
    have hge : (blockDisconnectedEvents oldHdr f h1).length ≤ (h1 - f) + k := by omega
    rw [List.get?_append_right hge, hdlen]
    have : (h1 - f) + k - (h1 - f) = k := by omega
    rw [this]
    exact blockConnectedEvents_get newHdr f h2 k hk

/-- Witness for C7: a re-org from tip height 4 to tip height 5 forking at
height 2, with the identity height-to-header maps. -/
theorem claim_C7_witness :
    2 ≤ 4 ∧ 2 ≤ 5 ∧
    ((reorgEvents (fun h => h) (fun h => h + 100) 2 4 5).length = (4 - 2) + (5 - 2) ∧
     (∀ k, k < 4 - 2 →
       (reorgEvents (fun h => h) (fun h => h + 100) 2 4 5).get? k =
         some (ClientEvent.blockDisconnected (4 - k) (4 - k))) ∧
     (∀ k, k < 5 - 2 →
       (reorgEvents (fun h => h) (fun h => h + 100) 2 4 5).get? ((4 - 2) + k) =
         some (ClientEvent.blockConnected ((2 + 1 + k) + 100) (2 + 1 + k)))) :=
  ⟨by decide, by decide,
    claim_C7 (fun h => h) (fun h => h + 100) 2 4 5 (by decide) (by decide)⟩

/-- A Bitcoin address as parsed by the CLI (base58/bech32 text); opaque. -/
abbrev Address := String

/-- `Height` (a `u64`). -/
abbrev Height := Nat

/-- A `host:port` socket address; opaque. -/
abbrev SocketAddr := String

/-- A filesystem path; opaque. -/
abbrev WalletPath := String

/-- A BIP-32 derivation path; opaque. -/
abbrev DerivationPath := List Nat

/-- The wallet CLI options (`Options` in `src/wallet/src/main.rs`).
`addresses` is a `Vec`, i.e. the flag is repeatable; `debug` is a switch. -/
structure Options where
  addresses : List Address
  birth_height : Height
  connect : SocketAddr
  wallet : WalletPath
  hd_path : DerivationPath
  debug : Bool

/-- The field names of `Options`, in declaration order. -/
def optionsFieldNames : List String :=
  ["addresses", "birth_height", "connect", "wallet", "hd_path", "debug"]

/-- Kebab-case letter mapping: underscores become hyphens. -/
def kebabChar (c : Char) : Char := if c = '_' then '-' else c

/-- Modelled from the spec: the long-option name `argh`'s `FromArgs` derive
gives a struct field (the derive macro itself is a third-party library, not
among the sources): two leading dashes followed by the kebab-cased field
name. -/
def optionFlag (fieldName : String) : String :=
  "--" ++ String.mk (fieldName.toList.map kebabChar)

/-- The long flags the wallet CLI accepts, one per `Options` field. -/
def cliFlags : List String := optionsFieldNames.map optionFlag

/-- An error returned from `nakamoto_wallet::run`; opaque. -/
structure WalletError where
  message : String

/-- The exit-code behaviour of `main` in `src/wallet/src/main.rs`: on
`Err(err)` from `nakamoto_wallet::run` it logs and calls
`std::process::exit(1)`; otherwise `main` returns and the process exits 0. -/
def walletMainExitCode (runResult : Except WalletError Unit) : Nat :=
  match runResult with
  | Except.error _ => 1
  | Except.ok _ => 0

/-- Claim C8: the wallet CLI accepts `--addresses` (repeatable),
`--birth-height`, `--connect`, `--wallet`, `--hd-path` and `--debug`, and the
process exits with code 1 exactly when the wallet run function returns a
fatal error, and with code 0 on clean shutdown. -/
theorem claim_C8 :
    cliFlags = ["--addresses", "--birth-height", "--connect", "--wallet", "--hd-path", "--debug"] ∧
    (∀ addrs : List Address, ∃ o : Options, o.addresses = addrs) ∧
    walletMainExitCode (Except.ok ()) = 0 ∧
    (∀ r : Except WalletError Unit,
      walletMainExitCode r = 1 ↔ ∃ e, r = Except.error e) ∧
    (∀ r : Except WalletError Unit,
      walletMainExitCode r = 0 ↔ r = Except.ok ()) := by
  refine ⟨rfl, ?_, rfl, ?_, ?_⟩
  · intro addrs
    exact ⟨⟨addrs, 0, "", "", [], false⟩, rfl⟩
  · intro r
    cases r with
    | error e => simp [walletMainExitCode]
    | ok u => simp [walletMainExitCode]
  · intro r
    cases r with
    | error e => simp [walletMainExitCode]
    | ok u => simp [walletMainExitCode]

end Nakamoto
